import Mathlib

/-!
# posix_time: `ToGo`, POSIX strftime patterns to Go reference-time layouts

Shallow embedding of `ToGo` from `posix_time.go`.

A Go `string` is modelled by a Lean `String`: the input is a valid sequence of
Unicode code points, so `for _, v := range formatString` visits exactly the
characters of `formatString.data` in order, and `out.WriteRune(v)` appends `v`.
The result pair `(string, error)` is modelled by `String × Option String`:
`none` is the `nil` error and `some msg` an error whose `Error()` text is `msg`.
-/

namespace PosixTime

/-- One iteration of the body of the `for ... range formatString` loop of `ToGo`.
The loop state is the builder `out` and the flag `lastPercent`; `Except.error`
carries the pair handed to an early `return`, `Except.ok` the state after an
iteration that runs to its end. -/
def step (formatString : String) (out : String) (lastPercent : Bool) (v : Char) :
    Except (String × String) (String × Bool) :=
  if lastPercent then
    match v with
    | 'U' | 'u' | 'V' | 'W' | 'w' | 'X' | 'x' =>
      .error ("", "%" ++ String.singleton v ++ " not supported in Go: " ++ formatString)
    | '%' => .ok (out.push '%', false)
    | 'A' => .ok (out ++ "Monday", false)
    | 'a' => .ok (out ++ "Mon", false)
    | 'B' => .ok (out ++ "January", false)
    | 'b' => .ok (out ++ "Jan", false)
    | 'C' => .ok (out ++ "06", false)
    | 'c' => .ok (out ++ "Mon Jan _2 15:04:05 2006", false)
    | 'D' => .ok (out ++ "1/2/06", false)
    | 'd' => .ok (out ++ "2", false)
    | 'e' => .ok (out ++ "_2", false)
    | 'F' => .ok (out ++ "2006-01-02", false)
    | 'H' => .ok (out ++ "15", false)
    | 'h' => .ok (out ++ "Jan", false)
    | 'I' => .ok (out ++ "3", false)
    | 'j' => .ok (out ++ "002", false)
    | 'k' => .ok (out ++ "_15", false)
    | 'l' => .ok (out ++ "_3", false)
    | 'M' => .ok (out ++ "04", false)
    | 'm' => .ok (out ++ "1", false)
    | 'n' => .ok (out.push '\n', false)
    | 'p' => .ok (out ++ "PM", false)
    | 'R' => .ok (out ++ "15:04", false)
    | 'r' => .ok (out ++ "3:04:05 PM", false)
    | 'S' => .ok (out ++ "05", false)
    | 'T' => .ok (out ++ "15:04:05", false)
    | 't' => .ok (out.push '\t', false)
    | 'v' => .ok (out ++ "_2-Jan-2006", false)
    | 'Y' => .ok (out ++ "2006", false)
    | 'y' => .ok (out ++ "06", false)
    | 'Z' => .ok (out ++ "MST", false)
    | 'z' => .ok (out ++ "-0700", false)
    | _ => .error ("", "invalid format string: " ++ formatString)
  else
    if v = '%' then .ok (out, true) else .ok (out.push v, false)

/-- The `for ... range formatString` loop of `ToGo`, run over the characters
still to visit from the state `(out, lastPercent)`. -/
def loop (formatString : String) : List Char → String → Bool →
    Except (String × String) (String × Bool)
  | [], out, lastPercent => .ok (out, lastPercent)
  | v :: rest, out, lastPercent =>
    match step formatString out lastPercent v with
    | .error r => .error r
    | .ok (out', lastPercent') => loop formatString rest out' lastPercent'

/-- The function `ToGo`: the loop from the empty builder with `lastPercent`
false, then `return out.String(), nil` unless the loop returned early. -/
def ToGo (formatString : String) : String × Option String :=
  match loop formatString formatString.data "" false with
  | .error (r, err) => (r, some err)
  | .ok (out, _) => (out, none)

/-- The supported directive table, as the specification lists it: directive
character and replacement. -/
def table : List (Char × String) :=
  [('A', "Monday"), ('a', "Mon"), ('B', "January"), ('b', "Jan"), ('h', "Jan"),
   ('C', "06"), ('c', "Mon Jan _2 15:04:05 2006"), ('D', "1/2/06"), ('d', "2"),
   ('e', "_2"), ('F', "2006-01-02"), ('H', "15"), ('I', "3"), ('j', "002"),
   ('k', "_15"), ('l', "_3"), ('M', "04"), ('m', "1"), ('n', "\n"), ('p', "PM"),
   ('R', "15:04"), ('r', "3:04:05 PM"), ('S', "05"), ('T', "15:04:05"), ('t', "\t"),
   ('v', "_2-Jan-2006"), ('Y', "2006"), ('y', "06"), ('Z', "MST"), ('z', "-0700")]

/-- The unsupported set of the specification. -/
def unsupportedSet : List Char := ['U', 'u', 'V', 'W', 'w', 'X', 'x']

/-- What a directive character resolves to according to the specification:
the escape marker stands for itself, a table character for its table entry, and
any other character for nothing. -/
def replacement (c : Char) : Option String :=
  if c = '%' then some "%" else table.lookup c

/-- The error pair the specification attaches to an unresolved directive
character `c` in the input `s`. -/
def failure (s : String) (c : Char) : String × String :=
  if c ∈ unsupportedSet then
    ("", "%" ++ String.singleton c ++ " not supported in Go: " ++ s)
  else ("", "invalid format string: " ++ s)

/-- The first directive of an input, scanning left to right, whose character
is neither the escape marker nor a character of the supported table. A
character outside a directive is skipped, a resolved directive is skipped as a
pair, and a final lone escape marker is no directive. -/
def firstOffending : List Char → Option Char
  | [] => none
  | a :: l =>
    if a = '%' then
      match l with
      | [] => none
      | c :: rest => if (replacement c).isSome then firstOffending rest else some c
    else firstOffending l

/-- The pieces an input is split into: a single character outside any
directive, or the two-character directive made of the escape marker and a
directive character. -/
inductive Token
  | lit (c : Char)
  | dir (c : Char)
  deriving DecidableEq

/-- A literal token is any character but the escape marker; a directive token
carries a character of the supported table or the escape marker. -/
def Token.wellFormed : Token → Prop
  | .lit c => c ≠ '%'
  | .dir c => c = '%' ∨ c ∈ table.map Prod.fst

instance Token.decidableWellFormed (t : Token) : Decidable t.wellFormed :=
  match t with
  | .lit c => inferInstanceAs (Decidable (c ≠ '%'))
  | .dir c => inferInstanceAs (Decidable (c = '%' ∨ c ∈ table.map Prod.fst))

/-- The input characters a token stands for. -/
def Token.source : Token → List Char
  | .lit c => [c]
  | .dir c => ['%', c]

/-- The output a token is translated to: a literal is copied, a directive is
replaced by its table entry, the escape marker by itself. -/
def Token.image : Token → String
  | .lit c => String.singleton c
  | .dir c => (replacement c).getD ""

/-- The value of `lastPercent` once the loop of `ToGo` has visited the whole of
`s`: true when the scan ends inside an escape, false when it ends outside one
or was left by an early `return`. -/
def endsInEscape (s : String) : Bool :=
  match loop s s.data "" false with
  | .error _ => false
  | .ok (_, lastPercent) => lastPercent

/-- The characters of an input that stand in directive position: each
character that comes right after an escape marker which itself opens an
escape. A final lone escape marker opens an escape with no directive
character. -/
def directiveChars : List Char → List Char
  | [] => []
  | a :: l =>
    if a = '%' then
      match l with
      | [] => []
      | c :: rest => c :: directiveChars rest
    else directiveChars l

/-- The pairs of distinct directive characters of the supported table that
share one replacement. -/
def sharedReplacements : List (Char × Char) :=
  ((table.product table).filter fun pq => pq.1.1 ≠ pq.2.1 ∧ pq.1.2 = pq.2.2).map
    fun pq => (pq.1.1, pq.2.1)

/-! ## The loop body -/

theorem step_escape (fs out : String) (v : Char) :
    step fs out true v =
      match replacement v with
      | some r => .ok (out ++ r, false)
      | none => .error (failure fs v) := by
  unfold step
  simp only [if_true]
  split
  case h_39 =>
    have hp : ¬ v = '%' := by assumption
    have hu : v ∉ unsupportedSet := by simp_all [unsupportedSet]
    have hl : table.lookup v = none := by
      rw [List.lookup_eq_none_iff]; simp_all [table]
    simp only [replacement, if_neg hp, hl, failure, if_neg hu]
  all_goals rfl

theorem step_plain (fs out : String) (v : Char) :
    step fs out false v =
      if v = '%' then .ok (out, true) else .ok (out.push v, false) := by
  simp [step]

theorem failure_fst (fs : String) (c : Char) : (failure fs c).1 = "" := by
  unfold failure
  split <;> rfl

/-! ## The loop -/

theorem loop_nil (fs out : String) (lp : Bool) : loop fs [] out lp = .ok (out, lp) := rfl

theorem loop_cons_plain (fs out : String) (v : Char) (rest : List Char) (h : v ≠ '%') :
    loop fs (v :: rest) out false = loop fs rest (out.push v) false := by
  simp [loop, step_plain, h]

theorem loop_cons_marker (fs out : String) (rest : List Char) :
    loop fs ('%' :: rest) out false = loop fs rest out true := by
  simp [loop, step_plain]

theorem loop_cons_resolved (fs out r : String) (v : Char) (rest : List Char)
    (h : replacement v = some r) :
    loop fs (v :: rest) out true = loop fs rest (out ++ r) false := by
  simp [loop, step_escape, h]

theorem loop_cons_unresolved (fs out : String) (v : Char) (rest : List Char)
    (h : replacement v = none) :
    loop fs (v :: rest) out true = .error (failure fs v) := by
  simp [loop, step_escape, h]

/-- An early return of the loop hands back the empty string. -/
theorem loop_error_fst (fs : String) (l : List Char) :
    ∀ (out : String) (lp : Bool) (r : String × String),
      loop fs l out lp = .error r → r.1 = "" := by
  induction l with
  | nil => intro out lp r h; simp [loop] at h
  | cons v rest ih =>
    intro out lp r h
    cases lp with
    | false =>
      by_cases hv : v = '%'
      · subst hv
        rw [loop_cons_marker] at h
        exact ih _ _ _ h
      · rw [loop_cons_plain _ _ _ _ hv] at h
        exact ih _ _ _ h
    | true =>
      cases hr : replacement v with
      | none =>
        rw [loop_cons_unresolved _ _ _ _ hr] at h
        cases h
        exact failure_fst fs v
      | some w =>
        rw [loop_cons_resolved _ _ _ _ _ hr] at h
        exact ih _ _ _ h

/-- Outside an escape, characters other than the marker are copied. -/
theorem loop_literal (fs : String) (l : List Char) (hl : '%' ∉ l) :
    ∀ out : String, loop fs l out false = .ok (out ++ String.mk l, false) := by
  induction l with
  | nil => intro out; simp [loop]
  | cons v rest ih =>
    intro out
    have hv : v ≠ '%' := fun h => hl (by simp [h])
    have hrest : '%' ∉ rest := fun h => hl (by simp [h])
    rw [loop_cons_plain _ _ _ _ hv, ih hrest]
    congr 2
    apply String.ext
    simp

/-- The loop over a concatenation is the loop over the first part followed,
unless that returned early, by the loop over the second part. -/
theorem loop_append (fs : String) (l₁ l₂ : List Char) :
    ∀ (out : String) (lp : Bool),
      loop fs (l₁ ++ l₂) out lp =
        match loop fs l₁ out lp with
        | .error r => .error r
        | .ok (o, b) => loop fs l₂ o b := by
  induction l₁ with
  | nil => intro out lp; simp [loop]
  | cons v rest ih =>
    intro out lp
    simp only [List.cons_append, loop]
    cases step fs out lp v with
    | error r => rfl
    | ok st => exact ih st.1 st.2

/-- A run of the loop that does not return early does not depend on the
string quoted in the error messages. -/
theorem loop_ok_indep (fs fs' : String) (l : List Char) :
    ∀ (out : String) (lp : Bool) (st : String × Bool),
      loop fs l out lp = .ok st → loop fs' l out lp = .ok st := by
  induction l with
  | nil => intro out lp st h; simpa [loop] using h
  | cons v rest ih =>
    intro out lp st h
    cases lp with
    | false =>
      by_cases hv : v = '%'
      · subst hv
        rw [loop_cons_marker] at h ⊢
        exact ih _ _ _ h
      · rw [loop_cons_plain _ _ _ _ hv] at h ⊢
        exact ih _ _ _ h
    | true =>
      cases hr : replacement v with
      | none =>
        rw [loop_cons_unresolved _ _ _ _ hr] at h
        cases h
      | some w =>
        rw [loop_cons_resolved _ _ _ _ _ hr] at h ⊢
        exact ih _ _ _ h

theorem firstOffending_cons_plain (v : Char) (rest : List Char) (h : v ≠ '%') :
    firstOffending (v :: rest) = firstOffending rest := by
  rw [firstOffending.eq_def]
  simp only [if_neg h]

theorem firstOffending_marker_cons (c : Char) (rest : List Char) :
    firstOffending ('%' :: c :: rest) =
      if (replacement c).isSome then firstOffending rest else some c := by
  rw [firstOffending.eq_def]
  simp only [if_true]

/-- The loop returns early at the first offending directive, with the error
of its character. -/
theorem loop_firstOffending (fs : String) (c : Char) (l : List Char) :
    (∀ out : String, firstOffending l = some c →
      loop fs l out false = .error (failure fs c)) ∧
    (∀ out : String, firstOffending ('%' :: l) = some c →
      loop fs l out true = .error (failure fs c)) := by
  induction l with
  | nil => constructor <;> intro out h <;> simp [firstOffending] at h
  | cons v rest ih =>
    constructor
    · intro out h
      by_cases hv : v = '%'
      · subst hv
        rw [loop_cons_marker]
        exact ih.2 out h
      · rw [loop_cons_plain _ _ _ _ hv]
        apply ih.1
        rwa [firstOffending_cons_plain _ _ hv] at h
    · intro out h
      cases hr : replacement v with
      | none =>
        simp [firstOffending_marker_cons, hr] at h
        subst h
        exact loop_cons_unresolved _ _ _ _ hr
      | some w =>
        rw [loop_cons_resolved _ _ _ _ _ hr]
        apply ih.1
        simpa [firstOffending_marker_cons, hr] using h

theorem replacement_wellFormed (v : Char) (r : String) (h : replacement v = some r) :
    (Token.dir v).wellFormed ∧ (Token.dir v).image = r := by
  refine ⟨?_, by simp [Token.image, h]⟩
  unfold Token.wellFormed
  by_cases hv : v = '%'
  · exact Or.inl hv
  · right
    simp only [replacement, if_neg hv] at h
    obtain ⟨l₁, l₂, hl, -⟩ := List.lookup_eq_some_iff.mp h
    rw [hl]
    simp

theorem join_cons (a : String) (l : List String) :
    String.join (a :: l) = a ++ String.join l := by
  apply String.ext
  simp

/-- A run of the loop that does not return early splits what it visits into
well-formed tokens, up to a pending escape marker at either end, and writes
their images. -/
theorem loop_tokens (fs : String) (l : List Char) :
    ∀ (out : String) (lp : Bool) (o : String) (b : Bool),
      loop fs l out lp = .ok (o, b) →
      ∃ ts : List Token, (∀ t ∈ ts, t.wellFormed) ∧
        (if lp then ['%'] else []) ++ l =
          (ts.map Token.source).flatten ++ (if b then ['%'] else []) ∧
        o = out ++ String.join (ts.map Token.image) := by
  induction l with
  | nil =>
    intro out lp o b h
    simp only [loop, Except.ok.injEq, Prod.mk.injEq] at h
    obtain ⟨rfl, rfl⟩ := h
    exact ⟨[], by simp, by simp, by simp [String.join]⟩
  | cons v rest ih =>
    intro out lp o b h
    cases lp with
    | false =>
      by_cases hv : v = '%'
      · subst hv
        rw [loop_cons_marker] at h
        obtain ⟨ts, hw, hs, ho⟩ := ih _ _ _ _ h
        exact ⟨ts, hw, by simpa using hs, ho⟩
      · rw [loop_cons_plain _ _ _ _ hv] at h
        obtain ⟨ts, hw, hs, ho⟩ := ih _ _ _ _ h
        refine ⟨Token.lit v :: ts, ?_, ?_, ?_⟩
        · intro t ht
          rcases List.mem_cons.mp ht with rfl | ht
          · exact hv
          · exact hw t ht
        · simp only [Bool.false_eq_true, if_false, List.nil_append] at hs ⊢
          simp [Token.source, hs]
        · rw [ho, List.map_cons, join_cons]
          apply String.ext
          simp [Token.image]
    | true =>
      cases hr : replacement v with
      | none =>
        rw [loop_cons_unresolved _ _ _ _ hr] at h
        cases h
      | some w =>
        rw [loop_cons_resolved _ _ _ _ _ hr] at h
        obtain ⟨ts, hw, hs, ho⟩ := ih _ _ _ _ h
        obtain ⟨hwf, him⟩ := replacement_wellFormed v w hr
        refine ⟨Token.dir v :: ts, ?_, ?_, ?_⟩
        · intro t ht
          rcases List.mem_cons.mp ht with rfl | ht
          · exact hwf
          · exact hw t ht
        · simp only [Bool.false_eq_true, if_false, List.nil_append] at hs
          simp [Token.source, hs]
        · rw [ho, List.map_cons, join_cons, him, String.append_assoc]

/-- The loop from a builder holding `out` writes what the loop from the empty
builder writes, after `out`. -/
theorem loop_prefix (fs : String) (l : List Char) :
    ∀ (out : String) (lp : Bool),
      loop fs l out lp =
        match loop fs l "" lp with
        | .error r => .error r
        | .ok (o, b) => .ok (out ++ o, b) := by
  induction l with
  | nil => intro out lp; simp [loop]
  | cons v rest ih =>
    intro out lp
    cases lp with
    | false =>
      by_cases hv : v = '%'
      · subst hv
        rw [loop_cons_marker fs out, loop_cons_marker fs ""]
        exact ih out true
      · rw [loop_cons_plain fs out _ _ hv, loop_cons_plain fs "" _ _ hv,
          ih (out.push v), ih ("".push v)]
        cases loop fs rest "" false with
        | error r => rfl
        | ok st =>
          simp only [Except.ok.injEq, Prod.mk.injEq, and_true]
          apply String.ext
          simp
    | true =>
      cases hr : replacement v with
      | none =>
        rw [loop_cons_unresolved fs out _ _ hr, loop_cons_unresolved fs "" _ _ hr]
      | some w =>
        rw [loop_cons_resolved fs out _ _ _ hr, loop_cons_resolved fs "" _ _ _ hr,
          ih (out ++ w), ih ("" ++ w)]
        cases loop fs rest "" false with
        | error r => rfl
        | ok st =>
          simp only [Except.ok.injEq, Prod.mk.injEq, and_true]
          apply String.ext
          simp

/-- Without an offending directive the loop runs to its end. -/
theorem loop_ok_of_firstOffending_none (fs : String) (l : List Char) :
    (∀ out : String, firstOffending l = none →
      ∃ st, loop fs l out false = .ok st) ∧
    (∀ out : String, firstOffending ('%' :: l) = none →
      ∃ st, loop fs l out true = .ok st) := by
  induction l with
  | nil => exact ⟨fun out _ => ⟨_, rfl⟩, fun out _ => ⟨_, rfl⟩⟩
  | cons v rest ih =>
    constructor
    · intro out h
      by_cases hv : v = '%'
      · subst hv
        rw [loop_cons_marker]
        exact ih.2 out h
      · rw [loop_cons_plain _ _ _ _ hv]
        apply ih.1
        rwa [firstOffending_cons_plain _ _ hv] at h
    · intro out h
      cases hr : replacement v with
      | none => simp [firstOffending_marker_cons, hr] at h
      | some w =>
        rw [loop_cons_resolved _ _ _ _ _ hr]
        apply ih.1
        simpa [firstOffending_marker_cons, hr] using h

theorem replacement_eq_none_iff (c : Char) :
    replacement c = none ↔ c ≠ '%' ∧ c ∉ table.map Prod.fst := by
  unfold replacement
  by_cases hc : c = '%'
  · simp [hc]
  · rw [if_neg hc, List.lookup_eq_none_iff]
    simp only [ne_eq, hc, not_false_eq_true, true_and, List.mem_map, not_exists, not_and]
    constructor
    · intro h p hp heq
      have h1 := h p hp
      rw [heq] at h1
      simp at h1
    · intro h p hp
      have h1 := h p hp
      simp only [bne_iff_ne, ne_eq]
      exact fun e => h1 e.symm

theorem directiveChars_cons_plain (v : Char) (rest : List Char) (h : v ≠ '%') :
    directiveChars (v :: rest) = directiveChars rest := by
  rw [directiveChars.eq_def]
  simp only [if_neg h]

theorem directiveChars_marker_cons (c : Char) (rest : List Char) :
    directiveChars ('%' :: c :: rest) = c :: directiveChars rest := by
  rw [directiveChars.eq_def]
  simp only [if_true]

/-- The first offending directive is the leftmost character in directive
position that has no replacement. -/
theorem firstOffending_eq_find (l : List Char) :
    firstOffending l = (directiveChars l).find? (fun c => (replacement c).isNone) ∧
    firstOffending ('%' :: l) =
      (directiveChars ('%' :: l)).find? (fun c => (replacement c).isNone) := by
  induction l with
  | nil => exact ⟨rfl, rfl⟩
  | cons v rest ih =>
    constructor
    · by_cases hv : v = '%'
      · subst hv
        exact ih.2
      · rw [firstOffending_cons_plain _ _ hv, directiveChars_cons_plain _ _ hv]
        exact ih.1
    · rw [firstOffending_marker_cons, directiveChars_marker_cons, List.find?_cons, ih.1]
      cases replacement v <;> simp

theorem replacement_length (v : Char) (r : String) (h : replacement v = some r) :
    r.data.length ≤ 24 := by
  by_cases hv : v = '%'
  · subst hv
    have : r = "%" := by simpa [replacement] using h.symm
    subst this
    decide
  · simp only [replacement, if_neg hv] at h
    obtain ⟨l₁, l₂, hl, -⟩ := List.lookup_eq_some_iff.mp h
    have hmem : (v, r) ∈ table := by rw [hl]; simp
    have hall : ∀ p ∈ table, p.2.data.length ≤ 24 := by decide
    exact hall (v, r) hmem

/-- The loop writes at most 12 characters for each character it visits, a
pending escape marker counting as one more. -/
theorem loop_length (fs : String) (l : List Char) :
    ∀ (out : String) (lp : Bool) (o : String) (b : Bool),
      loop fs l out lp = .ok (o, b) →
      o.data.length ≤ out.data.length + 12 * l.length + (if lp then 12 else 0) := by
  induction l with
  | nil =>
    intro out lp o b h
    simp only [loop, Except.ok.injEq, Prod.mk.injEq] at h
    obtain ⟨rfl, rfl⟩ := h
    omega
  | cons v rest ih =>
    intro out lp o b h
    cases lp with
    | false =>
      by_cases hv : v = '%'
      · subst hv
        rw [loop_cons_marker] at h
        have := ih _ _ _ _ h
        simp only [if_true, List.length_cons] at this ⊢
        omega
      · rw [loop_cons_plain _ _ _ _ hv] at h
        have := ih _ _ _ _ h
        simp only [String.data_push, List.length_append, List.length_singleton,
          Bool.false_eq_true, if_false, List.length_cons, List.length_nil] at this ⊢
        omega
    | true =>
      cases hr : replacement v with
      | none =>
        rw [loop_cons_unresolved _ _ _ _ hr] at h
        cases h
      | some w =>
        rw [loop_cons_resolved _ _ _ _ _ hr] at h
        have := ih _ _ _ _ h
        have hw := replacement_length v w hr
        simp only [String.data_append, List.length_append, Bool.false_eq_true, if_false,
          if_true, List.length_cons] at this ⊢
        omega

/-! ## Properties of `ToGo` -/

/-- C1: on the input `%d-%b-%y` of the repository's test, `ToGo` returns
`2-Jan-06` with a nil error, with the unpadded day `2` for `%d`, and so not
the `02-Jan-06` the test expects. -/
theorem ToGo_needed_example :
    ToGo "%d-%b-%y" = ("2-Jan-06", none) ∧ ToGo "%d-%b-%y" ≠ ("02-Jan-06", none) := by
  constructor <;> decide

/-- C2: for every entry `(X, r)` of the supported table, `ToGo` applied to
the two-character input `%X` returns exactly `r` and a nil error. -/
theorem ToGo_table_directive (X : Char) (r : String) (h : (X, r) ∈ table) :
    ToGo ("%" ++ String.singleton X) = (r, none) := by
  simp only [table, List.mem_cons, Prod.mk.injEq, List.mem_nil_iff, or_false] at h
  rcases h with h | h | h | h | h | h | h | h | h | h | h | h | h | h | h | h | h | h | h | h |
    h | h | h | h | h | h | h | h | h | h
  all_goals
    obtain ⟨rfl, rfl⟩ := h
    rfl

theorem ToGo_table_directive_witness :
    ('F', "2006-01-02") ∈ table ∧ ToGo ("%" ++ String.singleton 'F') = ("2006-01-02", none) :=
  ⟨by decide, ToGo_table_directive 'F' "2006-01-02" (by decide)⟩

/-- C3: when the first directive of `s` that is not in the supported table is
`%c` with `c` one of `U u V W w X x`, `ToGo s` returns a non-nil error whose
message is `%c not supported in Go: ` followed by the whole of `s`. -/
theorem ToGo_unsupported (s : String) (c : Char) (hc : c ∈ unsupportedSet)
    (h : firstOffending s.data = some c) :
    ToGo s = ("", some ("%" ++ String.singleton c ++ " not supported in Go: " ++ s)) := by
  unfold ToGo
  rw [(loop_firstOffending s c s.data).1 "" h]
  simp [failure, hc]

theorem ToGo_unsupported_witness :
    'U' ∈ unsupportedSet ∧ firstOffending "%U".data = some 'U' ∧
      ToGo "%U" = ("", some "%U not supported in Go: %U") :=
  ⟨by decide, by decide, ToGo_unsupported "%U" 'U' (by decide) (by decide)⟩

/-- C4: when the first directive of `s` that is not in the supported table is
`%c` with `c` neither the escape marker nor one of `U u V W w X x`, `ToGo s`
returns a non-nil error whose message is `invalid format string: ` followed by
the whole of `s`. -/
theorem ToGo_invalid (s : String) (c : Char) (hc : c ∉ unsupportedSet)
    (h : firstOffending s.data = some c) :
    ToGo s = ("", some ("invalid format string: " ++ s)) := by
  unfold ToGo
  rw [(loop_firstOffending s c s.data).1 "" h]
  simp [failure, hc]

theorem ToGo_invalid_witness :
    'q' ∉ unsupportedSet ∧ firstOffending "%q".data = some 'q' ∧
      ToGo "%q" = ("", some "invalid format string: %q") :=
  ⟨by decide, by decide, ToGo_invalid "%q" 'q' (by decide) (by decide)⟩

/-- C5: whenever `ToGo` returns a non-nil error, the string it returns is
empty: nothing written before the failing directive is handed back. -/
theorem ToGo_error_returns_empty (s : String) (h : (ToGo s).2 ≠ none) :
    (ToGo s).1 = "" := by
  unfold ToGo at h ⊢
  cases hl : loop s s.data "" false with
  | error r =>
    obtain ⟨a, b⟩ := r
    simpa using loop_error_fst s s.data "" false (a, b) hl
  | ok st =>
    obtain ⟨a, b⟩ := st
    simp [hl] at h

theorem ToGo_error_returns_empty_witness :
    (ToGo "abc%Y-%U").2 ≠ none ∧ (ToGo "abc%Y-%U").1 = "" :=
  ⟨by decide, ToGo_error_returns_empty "abc%Y-%U" (by decide)⟩

/-- C6: an input without the escape marker is returned as it is, with a
nil error. -/
theorem ToGo_literal (s : String) (h : '%' ∉ s.data) : ToGo s = (s, none) := by
  unfold ToGo
  rw [loop_literal s s.data h]
  simp

theorem ToGo_literal_witness :
    ('%' ∉ "".data ∧ ToGo "" = ("", none)) ∧
      ('%' ∉ "02 Jan, é".data ∧ ToGo "02 Jan, é" = ("02 Jan, é", none)) :=
  ⟨⟨by decide, ToGo_literal "" (by decide)⟩,
   ⟨by decide, ToGo_literal "02 Jan, é" (by decide)⟩⟩

/-- C7: the pair `%%` is translated to the single character `%`, with a nil
error. -/
theorem ToGo_percent_percent : ToGo "%%" = ("%", none) := by
  decide

/-- C8, as stated, fails on the input `%`: `ToGo` succeeds on it, yet a lone
escape marker is neither a literal token nor a two-character directive, so the
input has no split into well-formed tokens. -/
theorem ToGo_tokens_lone_marker :
    ToGo "%" = ("", none) ∧
      ¬ ∃ ts : List Token, (∀ t ∈ ts, t.wellFormed) ∧
        "%".data = (ts.map Token.source).flatten ∧
        (ToGo "%").1 = String.join (ts.map Token.image) := by
  refine ⟨by decide, ?_⟩
  rintro ⟨ts, hw, hs, -⟩
  cases ts with
  | nil => simp at hs
  | cons t ts =>
    cases t with
    | lit c =>
      have hc : c ≠ '%' := hw (Token.lit c) (by simp)
      simp only [List.map_cons, List.flatten_cons, Token.source, List.singleton_append,
        List.cons.injEq] at hs
      exact hc hs.1.symm
    | dir c =>
      simp [Token.source] at hs

/-- C8, amended: on every input `s` on which `ToGo` succeeds, `s` is the
concatenation of well-formed tokens (single characters other than the escape
marker, and two-character directives of the supported table or `%%`) followed,
when the scan ends inside an escape, by one final lone escape marker; the output
is the concatenation of the images of the tokens, nothing being written for
the final marker. -/
theorem ToGo_tokens (s o : String) (h : ToGo s = (o, none)) :
    ∃ ts : List Token, (∀ t ∈ ts, t.wellFormed) ∧
      s.data = (ts.map Token.source).flatten ++ (if endsInEscape s then ['%'] else []) ∧
      o = String.join (ts.map Token.image) := by
  unfold ToGo at h
  unfold endsInEscape
  cases hl : loop s s.data "" false with
  | error r => simp [hl] at h
  | ok st =>
    obtain ⟨o', b⟩ := st
    simp only [hl, Prod.mk.injEq, and_true] at h
    subst h
    obtain ⟨ts, hw, hs, ho⟩ := loop_tokens s s.data "" false o' b hl
    exact ⟨ts, hw, by simpa using hs, by simpa using ho⟩

theorem ToGo_tokens_witness :
    ToGo "a%Y%%%" = ("a2006%", none) ∧
      ∃ ts : List Token, (∀ t ∈ ts, t.wellFormed) ∧
        "a%Y%%%".data =
          (ts.map Token.source).flatten ++ (if endsInEscape "a%Y%%%" then ['%'] else []) ∧
        "a2006%" = String.join (ts.map Token.image) :=
  ⟨by decide, ToGo_tokens "a%Y%%%" "a2006%" (by decide)⟩

/-- C9: when `ToGo` succeeds on `s` with output `o` and the scan of `s` ends
outside an escape, `ToGo` succeeds on `s` followed by a lone `%` with the same
output `o` and a nil error. -/
theorem ToGo_trailing_marker (s o : String) (h : ToGo s = (o, none))
    (he : endsInEscape s = false) :
    ToGo (s ++ "%") = (o, none) := by
  unfold ToGo at h
  unfold endsInEscape at he
  cases hl : loop s s.data "" false with
  | error r => simp [hl] at h
  | ok st =>
    obtain ⟨o', b⟩ := st
    simp only [hl, Prod.mk.injEq, and_true] at h
    simp only [hl] at he
    subst h he
    have h' := loop_ok_indep s (s ++ "%") s.data "" false _ hl
    unfold ToGo
    rw [String.data_append, loop_append, h']
    rfl

theorem ToGo_trailing_marker_witness :
    (ToGo "abc" = ("abc", none) ∧ endsInEscape "abc" = false ∧
      ToGo ("abc" ++ "%") = ("abc", none)) ∧
    (ToGo "" = ("", none) ∧ endsInEscape "" = false ∧ ToGo ("" ++ "%") = ("", none)) :=
  ⟨⟨by decide, by decide, ToGo_trailing_marker "abc" "abc" (by decide) (by decide)⟩,
   ⟨by decide, by decide, ToGo_trailing_marker "" "" (by decide) (by decide)⟩⟩

/-- C10: `%F` is translated to `2006-01-02` while `%Y-%m-%d` is translated to
`2006-1-2`, both with a nil error: the two outputs differ. -/
theorem ToGo_F_versus_expansion :
    ToGo "%F" = ("2006-01-02", none) ∧ ToGo "%Y-%m-%d" = ("2006-1-2", none) ∧
      (ToGo "%F").1 ≠ (ToGo "%Y-%m-%d").1 := by
  refine ⟨?_, ?_, ?_⟩ <;> decide

/-- C11: each composite or alias directive is translated to the same string
as the expansion its documentation gives, with a nil error: `%D` and
`%m/%d/%y`, `%R` and `%H:%M`, `%r` and `%I:%M:%S %p`, `%T` and `%H:%M:%S`,
`%v` and `%e-%b-%Y`, `%h` and `%b`. -/
theorem ToGo_composites :
    (ToGo "%D" = ("1/2/06", none) ∧ ToGo "%m/%d/%y" = ("1/2/06", none)) ∧
    (ToGo "%R" = ("15:04", none) ∧ ToGo "%H:%M" = ("15:04", none)) ∧
    (ToGo "%r" = ("3:04:05 PM", none) ∧ ToGo "%I:%M:%S %p" = ("3:04:05 PM", none)) ∧
    (ToGo "%T" = ("15:04:05", none) ∧ ToGo "%H:%M:%S" = ("15:04:05", none)) ∧
    (ToGo "%v" = ("_2-Jan-2006", none) ∧ ToGo "%e-%b-%Y" = ("_2-Jan-2006", none)) ∧
    (ToGo "%h" = ("Jan", none) ∧ ToGo "%b" = ("Jan", none)) := by
  refine ⟨⟨?_, ?_⟩, ⟨?_, ?_⟩, ⟨?_, ?_⟩, ⟨?_, ?_⟩, ⟨?_, ?_⟩, ⟨?_, ?_⟩⟩ <;> decide

/-- C12: for two inputs `p` and `q` without the escape marker, `ToGo` succeeds
on `p ++ q` and its output is the output for `p` followed by the output for
`q`. -/
theorem ToGo_literal_append (p q : String) (hp : '%' ∉ p.data) (hq : '%' ∉ q.data) :
    ToGo (p ++ q) = ((ToGo p).1 ++ (ToGo q).1, none) := by
  have hpq : '%' ∉ (p ++ q).data := by
    simp only [String.data_append, List.mem_append, not_or]
    exact ⟨hp, hq⟩
  unfold ToGo
  rw [loop_literal _ _ hpq, loop_literal _ _ hp, loop_literal _ _ hq]
  rfl

theorem ToGo_literal_append_witness :
    '%' ∉ "02 ".data ∧ '%' ∉ "Jan".data ∧
      ToGo ("02 " ++ "Jan") = ((ToGo "02 ").1 ++ (ToGo "Jan").1, none) :=
  ⟨by decide, by decide, ToGo_literal_append "02 " "Jan" (by decide) (by decide)⟩

/-- C13: for every `s` without the escape marker, `ToGo` applied to `%%`
followed by `s` returns `%` followed by `s` with a nil error; in particular
`%%d` gives `%d` and `%Yd` gives `2006d`. -/
theorem ToGo_percent_not_rescanned :
    (∀ s : String, '%' ∉ s.data → ToGo ("%%" ++ s) = ("%" ++ s, none)) ∧
      ToGo "%%d" = ("%d", none) ∧ ToGo "%Yd" = ("2006d", none) := by
  refine ⟨?_, by decide, by decide⟩
  intro s hs
  unfold ToGo
  have h1 : ("%%" ++ s).data = '%' :: '%' :: s.data := rfl
  rw [h1, loop_cons_marker, loop_cons_resolved _ _ "%" _ _ (by decide), loop_literal _ _ hs]
  simp only [String.empty_append]

theorem ToGo_percent_not_rescanned_witness :
    '%' ∉ "d-m".data ∧ ToGo ("%%" ++ "d-m") = ("%" ++ "d-m", none) :=
  ⟨by decide, ToGo_percent_not_rescanned.1 "d-m" (by decide)⟩

set_option maxRecDepth 100000 in
/-- C14: `%C` and `%y` are both translated to `06`, so the two translations
are equal; the pairs of distinct supported directive characters with equal
replacements are `b`/`h` and `C`/`y`. -/
theorem ToGo_century_versus_year :
    ToGo "%C" = ("06", none) ∧ ToGo "%y" = ("06", none) ∧ ToGo "%C" = ToGo "%y" ∧
      sharedReplacements = [('b', 'h'), ('h', 'b'), ('C', 'y'), ('y', 'C')] := by
  refine ⟨by decide, by decide, by decide, ?_⟩
  rfl

/-- C15: when `ToGo` succeeds on `p` with output `a` and the scan of `p` ends
outside an escape, then (i) if `ToGo` succeeds on `q` with output `b` it
succeeds on `p ++ q` with output `a ++ b`, and (ii) if `ToGo` fails on `q` it
fails on `p ++ q` with the error of the same directive character, so of the same
kind, quoting `p ++ q` in place of `q`. -/
theorem ToGo_append (p q a : String) (hp : ToGo p = (a, none))
    (he : endsInEscape p = false) :
    (∀ b : String, ToGo q = (b, none) → ToGo (p ++ q) = (a ++ b, none)) ∧
    ((ToGo q).2 ≠ none →
      ∃ c : Char, ToGo q = ("", some (failure q c).2) ∧
        ToGo (p ++ q) = ("", some (failure (p ++ q) c).2)) := by
  unfold ToGo at hp
  unfold endsInEscape at he
  cases hl : loop p p.data "" false with
  | error r => simp [hl] at hp
  | ok st =>
    obtain ⟨a', e⟩ := st
    simp only [hl, Prod.mk.injEq, and_true] at hp
    simp only [hl] at he
    subst hp he
    have hpre : ∀ fs : String, loop fs (p ++ q).data "" false = loop fs q.data a' false := by
      intro fs
      rw [String.data_append, loop_append, loop_ok_indep p fs p.data "" false _ hl]
    constructor
    · intro b hb
      unfold ToGo at hb ⊢
      cases hq : loop q q.data "" false with
      | error r => simp [hq] at hb
      | ok st =>
        obtain ⟨b', e'⟩ := st
        simp only [hq, Prod.mk.injEq, and_true] at hb
        subst hb
        rw [hpre, loop_prefix, loop_ok_indep q (p ++ q) q.data "" false _ hq]
    · intro hq
      cases hf : firstOffending q.data with
      | none =>
        obtain ⟨st, hst⟩ := (loop_ok_of_firstOffending_none q q.data).1 "" hf
        simp [ToGo, hst] at hq
      | some c =>
        refine ⟨c, ?_, ?_⟩
        · unfold ToGo
          rw [(loop_firstOffending q c q.data).1 "" hf]
          simp [failure_fst]
        · unfold ToGo
          rw [hpre, (loop_firstOffending (p ++ q) c q.data).1 a' hf]
          simp [failure_fst]

theorem ToGo_append_witness :
    (ToGo "%Y-" = ("2006-", none) ∧ endsInEscape "%Y-" = false ∧
      ToGo "%m" = ("1", none) ∧ ToGo ("%Y-" ++ "%m") = ("2006-" ++ "1", none)) ∧
    ((ToGo "a%U").2 ≠ none ∧
      ∃ c : Char, ToGo "a%U" = ("", some (failure "a%U" c).2) ∧
        ToGo ("%Y-" ++ "a%U") = ("", some (failure ("%Y-" ++ "a%U") c).2)) :=
  ⟨⟨by decide, by decide, by decide,
    (ToGo_append "%Y-" "%m" "2006-" (by decide) (by decide)).1 "1" (by decide)⟩,
   ⟨by decide, (ToGo_append "%Y-" "a%U" "2006-" (by decide) (by decide)).2 (by decide)⟩⟩

/-- C16: `ToGo s` returns a non-nil error exactly when some character in
directive position of `s` is neither the escape marker nor one of the
characters of the supported table, and then the leftmost such character alone
decides the error: `ToGo s` returns the error of that character, quoting `s`. -/
theorem ToGo_fails_iff (s : String) :
    ((ToGo s).2 ≠ none ↔
      ∃ c ∈ directiveChars s.data, c ≠ '%' ∧ c ∉ table.map Prod.fst) ∧
    (∀ c : Char,
      (directiveChars s.data).find?
          (fun c => decide (c ≠ '%' ∧ c ∉ table.map Prod.fst)) = some c →
        ToGo s = ("", some (failure s c).2)) := by
  have hfun : (fun c => decide (c ≠ '%' ∧ c ∉ table.map Prod.fst)) =
      fun c => (replacement c).isNone := by
    funext c
    rw [Bool.eq_iff_iff]
    simp only [decide_eq_true_eq, Option.isNone_iff_eq_none]
    exact (replacement_eq_none_iff c).symm
  rw [hfun, ← (firstOffending_eq_find s.data).1]
  constructor
  · constructor
    · intro h
      cases hf : firstOffending s.data with
      | none =>
        obtain ⟨st, hst⟩ := (loop_ok_of_firstOffending_none s s.data).1 "" hf
        simp [ToGo, hst] at h
      | some c =>
        rw [(firstOffending_eq_find s.data).1] at hf
        refine ⟨c, List.mem_of_find?_eq_some hf, ?_⟩
        have := List.find?_some hf
        exact (replacement_eq_none_iff c).mp (by simpa using this)
    · rintro ⟨c, hc, hne⟩
      cases hf : firstOffending s.data with
      | none =>
        rw [(firstOffending_eq_find s.data).1, List.find?_eq_none] at hf
        have := hf c hc
        rw [(replacement_eq_none_iff c).mpr hne] at this
        simp at this
      | some d =>
        unfold ToGo
        rw [(loop_firstOffending s d s.data).1 "" hf]
        simp
  · intro c hf
    unfold ToGo
    rw [(loop_firstOffending s c s.data).1 "" hf]
    simp [failure_fst]

theorem ToGo_fails_iff_witness :
    (ToGo "%q%U").2 ≠ none ∧
      ToGo "%q%U" = ("", some "invalid format string: %q%U") ∧
      ToGo "%U%q" = ("", some "%U not supported in Go: %U%q") ∧
      (ToGo "%Y%%q%").2 = none :=
  ⟨(ToGo_fails_iff "%q%U").1.mpr ⟨'U', by decide, by decide, by decide⟩,
   (ToGo_fails_iff "%q%U").2 'q' (by decide),
   (ToGo_fails_iff "%U%q").2 'U' (by decide),
   by decide⟩

/-- C17: on every input on which `ToGo` succeeds the output has at most 12
times as many characters as the input, and the input `%c`, translated to the
24 characters of `Mon Jan _2 15:04:05 2006`, attains the bound. -/
theorem ToGo_length_bound :
    (∀ s o : String, ToGo s = (o, none) → o.length ≤ 12 * s.length) ∧
    (ToGo "%c" = ("Mon Jan _2 15:04:05 2006", none) ∧
      "Mon Jan _2 15:04:05 2006".length = 12 * "%c".length) := by
  refine ⟨?_, by decide, by decide⟩
  intro s o h
  unfold ToGo at h
  cases hl : loop s s.data "" false with
  | error r => simp [hl] at h
  | ok st =>
    obtain ⟨o', b⟩ := st
    simp only [hl, Prod.mk.injEq, and_true] at h
    subst h
    have := loop_length s s.data "" false o' b hl
    simp only [Bool.false_eq_true, if_false] at this
    show o'.data.length ≤ 12 * s.data.length
    simpa using this

theorem ToGo_length_bound_witness :
    ToGo "a%c%" = ("aMon Jan _2 15:04:05 2006", none) ∧
      "aMon Jan _2 15:04:05 2006".length ≤ 12 * "a%c%".length :=
  ⟨by decide, ToGo_length_bound.1 "a%c%" "aMon Jan _2 15:04:05 2006" (by decide)⟩

end PosixTime
